import Mathlib

/-!
Verification of the `v_frame` buffer-layout library (planes, frames,
chroma subsampling) against its specification.

The Rust source is shallowly embedded: pixel buffers become `List Nat`
(a `u8`/`u16` sample is a `Nat`; the element byte width is passed
explicitly where the source is generic over the pixel type), `usize`
arithmetic becomes `Nat` arithmetic (`saturating_add` is plain `+` on
`Nat`, which cannot overflow), `&mut self` methods returning
`Result<(), Error>` become state-passing functions returning the new
plane together with an optional error, and `NonZeroUsize` fields become
`Nat` fields with explicit positivity hypotheses where needed.
-/

namespace VFrame

/-- Decidable equality of `Except` values, for evaluating the embedded
fallible operations on concrete inputs. -/
instance {ε α : Type} [DecidableEq ε] [DecidableEq α] : DecidableEq (Except ε α) :=
  fun a b =>
    match a, b with
    | .error x, .error y =>
      if h : x = y then isTrue (by rw [h])
      else isFalse (fun c => h (Except.error.inj c))
    | .ok x, .ok y =>
      if h : x = y then isTrue (by rw [h])
      else isFalse (fun c => h (Except.ok.inj c))
    | .error _, .ok _ => isFalse (fun c => Except.noConfusion c)
    | .ok _, .error _ => isFalse (fun c => Except.noConfusion c)

/-- The error enumeration of `src/error.rs`. -/
inductive Error where
  | DataLength (expected found : Nat)
  | UnsupportedBitDepth (found : Nat)
  | DataTypeMismatch
  | UnsupportedResolution
  | InvalidStride (stride width : Nat)
deriving DecidableEq

/-- The chroma subsampling enumeration of `src/chroma.rs`. -/
inductive ChromaSubsampling where
  | Yuv420
  | Yuv422
  | Yuv444
  | Monochrome
deriving DecidableEq

namespace ChromaSubsampling

/-- Whether the specified chroma subsampling has chroma planes
(`ChromaSubsampling::has_chroma`). -/
def has_chroma (s : ChromaSubsampling) : Bool :=
  s ≠ Monochrome

/-- The divisor for the chroma dimensions
(`ChromaSubsampling::subsample_ratio`); the `NonZeroU8` components are
embedded as `Nat`. -/
def subsample_ratio (s : ChromaSubsampling) : Option (Nat × Nat) :=
  match s with
  | Yuv420 => some (2, 2)
  | Yuv422 => some (2, 1)
  | Yuv444 => some (1, 1)
  | Monochrome => none

/-- The dimensions for a chroma plane
(`ChromaSubsampling::chroma_dimensions`): `none` when there is no
subsample ratio, or when either division is not exact. -/
def chroma_dimensions (s : ChromaSubsampling) (luma_width luma_height : Nat) :
    Option (Nat × Nat) :=
  match s.subsample_ratio with
  | none => none
  | some (ss_x, ss_y) =>
    if luma_width % ss_x = 0 ∧ luma_height % ss_y = 0 then
      some (luma_width / ss_x, luma_height / ss_y)
    else
      none

end ChromaSubsampling

/-- The `PlaneGeometry` struct of `src/plane.rs`; the `NonZeroUsize`
fields `width`, `height` and `stride` are embedded as `Nat`. -/
structure PlaneGeometry where
  width : Nat
  height : Nat
  stride : Nat
  pad_left : Nat
  pad_right : Nat
  pad_top : Nat
  pad_bottom : Nat
deriving DecidableEq

/-- The `Plane` struct of `src/plane.rs`: the aligned pixel buffer
(alignment has no observable effect on values and is not modelled)
together with its geometry. -/
structure Plane where
  data : List Nat
  geometry : PlaneGeometry
deriving DecidableEq

/-- Chunking of a list into consecutive runs of `n` elements, the last
run possibly shorter: Rust's slice `chunks(n)`. Structural recursion on
an element-count fuel so that the kernel can evaluate it; a call with
`l.length` fuel and `0 < n` never exhausts the fuel. -/
def chunksGo (n : Nat) : Nat → List Nat → List (List Nat)
  | _, [] => []
  | 0, _ :: _ => []
  | fuel + 1, x :: xs => (x :: xs).take n :: chunksGo n fuel ((x :: xs).drop n)

/-- Rust's `chunks(n)` over a whole list (`n > 0` at every use site:
it is a plane stride, which is `NonZeroUsize`). -/
def listChunks (n : Nat) (l : List Nat) : List (List Nat) :=
  chunksGo n l.length l

/-- Overwrites the elements of `d` from position `start` on with `xs`:
the effect of writing the whole mutable sub-slice
`d[start .. start + xs.length]`. All uses are in bounds. -/
def listWrite (d : List Nat) (start : Nat) (xs : List Nat) : List Nat :=
  d.take start ++ xs ++ d.drop (start + xs.length)

/-- Writes the given rows into the buffer `d`, one after the other, the
row `i` at position `origin + stride * i`: the effect of the source's
row-by-row writes through `rows_mut()`. -/
def writeRows (d : List Nat) (origin stride : Nat) : List (List Nat) → List Nat
  | [] => d
  | r :: rs => writeRows (listWrite d origin r) (origin + stride) stride rs

/-- Decodes consecutive little-endian byte pairs into 16-bit sample
values, dropping a trailing unpaired byte: `chunks_exact(2)` combined
with `u16::from_le_bytes` in the source's high-bit-depth copy path. -/
def decodePairs : List Nat → List Nat
  | b0 :: b1 :: rest => (b0 + 256 * b1) :: decodePairs rest
  | _ => []

namespace Plane

/-- `Plane::new`: a buffer of `stride * (height + pad_top + pad_bottom)`
zero pixels (`saturating_add` on `usize` is plain `+` on `Nat`). -/
def new (geometry : PlaneGeometry) : Plane :=
  { data :=
      List.replicate
        (geometry.stride * (geometry.height + geometry.pad_top + geometry.pad_bottom)) 0
    geometry := geometry }

/-- `Plane::width`. -/
def width (p : Plane) : Nat := p.geometry.width

/-- `Plane::height`. -/
def height (p : Plane) : Nat := p.geometry.height

/-- `Plane::data_origin`: the index of the first visible pixel. -/
def data_origin (p : Plane) : Nat :=
  p.geometry.stride * p.geometry.pad_top + p.geometry.pad_left

/-- `Plane::rows`: slice the buffer from `data_origin` on, chunk it by
`stride`, keep the first `height` chunks, truncate each to `width`.
The source performs the slicing and the truncation with
`get_unchecked`; the embedding uses the total `drop`/`take`, and the
in-bounds facts that justify the elided checks are proved separately. -/
def rows (p : Plane) : List (List Nat) :=
  (((listChunks p.geometry.stride (p.data.drop p.data_origin)).take
      p.geometry.height).map (fun r => r.take p.geometry.width))

/-- `Plane::row`: the `y`-th element of the `rows()` iterator. -/
def row (p : Plane) (y : Nat) : Option (List Nat) :=
  p.rows[y]?

/-- `Plane::pixel`: linear index `data_origin + stride * y + x`,
bounds-checked against the whole buffer by `slice::get`. -/
def pixel (p : Plane) (x y : Nat) : Option Nat :=
  p.data[p.data_origin + p.geometry.stride * y + x]?

/-- `Plane::pixels`: the rows flattened, in row-major order. -/
def pixels (p : Plane) : List Nat :=
  p.rows.flatten

/-- `Plane::byte_data` with the element byte width (`size_of::<T>()`,
1 or 2) passed explicitly: each pixel becomes the two-byte buffer the
source builds (`[to_u8(pix), 0]`, or `to_le_bytes(to_u16(pix))`),
truncated to `byte_width` bytes. The `% 256` reductions embed the `u8`
truncations, which are exact for in-range sample values. -/
def byte_data (p : Plane) (byte_width : Nat) : List Nat :=
  p.pixels.flatMap (fun pix =>
    (if byte_width = 1 then [pix % 256, 0] else [pix % 256, pix / 256 % 256]).take
      byte_width)

/-- `Plane::copy_from_slice` as a state-passing function: the resulting
plane together with the optional error. After the exact-length check,
the write through `pixels_mut().zip(src)` sets the visible row `i` to
the `i`-th `width`-sized chunk of `src`. -/
def copy_from_slice (p : Plane) (src : List Nat) : Plane × Option Error :=
  let pixel_count := p.width * p.height
  if pixel_count ≠ src.length then
    (p, some (Error.DataLength pixel_count src.length))
  else
    ({ p with
        data :=
          writeRows p.data p.data_origin p.geometry.stride
            (listChunks p.width src) },
      none)

/-- `Plane::copy_from_u8_slice_with_stride` as a state-passing
function; `src` models a `&[u8]` (every element < 256 at every use
site), `input_stride` the `NonZeroUsize` stride in pixels, and
`byte_width` the element byte width (1 or 2). -/
def copy_from_u8_slice_with_stride (p : Plane) (src : List Nat)
    (input_stride byte_width : Nat) : Plane × Option Error :=
  if input_stride < p.width then
    (p, some (Error.InvalidStride input_stride p.width))
  else
    let byte_count := input_stride * p.height * byte_width
    if byte_count ≠ src.length then
      (p, some (Error.DataLength byte_count src.length))
    else if byte_width = 1 then
      -- Fast path for 1-byte pixels: row `i` is copied from
      -- `src[i * stride .. i * stride + width]`.
      ({ p with
          data :=
            writeRows p.data p.data_origin p.geometry.stride
              ((List.range p.height).map (fun i =>
                (src.drop (i * input_stride)).take p.width)) },
        none)
    else
      -- 2-byte pixels: row `i` decodes `width` little-endian byte
      -- pairs from `src[i * stride * byte_width ..]`.
      ({ p with
          data :=
            writeRows p.data p.data_origin p.geometry.stride
              ((List.range p.height).map (fun i =>
                decodePairs
                  ((src.drop (i * input_stride * byte_width)).take
                    (p.width * byte_width)))) },
        none)

/-- `Plane::copy_from_u8_slice`: the stride-taking copy at the visible
width. -/
def copy_from_u8_slice (p : Plane) (src : List Nat) (byte_width : Nat) :
    Plane × Option Error :=
  p.copy_from_u8_slice_with_stride src p.width byte_width

/-- The invariants the construction funnel (`FrameBuilder` →
`Plane::new`) establishes for every reachable plane: positive visible
dimensions (`NonZeroUsize` in the source), stride equal to
`width + pad_left + pad_right`, and the exact buffer length. -/
def WellFormed (p : Plane) : Prop :=
  0 < p.geometry.width ∧ 0 < p.geometry.height ∧
    p.geometry.stride = p.geometry.width + p.geometry.pad_left + p.geometry.pad_right ∧
    p.data.length =
      p.geometry.stride * (p.geometry.height + p.geometry.pad_top + p.geometry.pad_bottom)

instance (p : Plane) : Decidable p.WellFormed := by
  unfold WellFormed; infer_instance

end Plane

/-- The `FrameBuilder` struct of `src/frame.rs` (`width` and `height`
are `NonZeroUsize` in the source). -/
structure FrameBuilder where
  width : Nat
  height : Nat
  subsampling : ChromaSubsampling
  luma_padding_left : Nat := 0
  luma_padding_right : Nat := 0
  luma_padding_top : Nat := 0
  luma_padding_bottom : Nat := 0
deriving DecidableEq

/-- The `Frame` struct of `src/frame.rs`. -/
structure Frame where
  y_plane : Plane
  u_plane : Option Plane
  v_plane : Option Plane
  subsampling : ChromaSubsampling
deriving DecidableEq

namespace FrameBuilder

/-- The luma plane geometry `FrameBuilder::build` computes:
`luma_stride = width + pad_left + pad_right` (saturating adds on
`usize` are plain `+` on `Nat`). -/
def luma_geometry (b : FrameBuilder) : PlaneGeometry :=
  { width := b.width
    height := b.height
    stride := b.width + b.luma_padding_left + b.luma_padding_right
    pad_left := b.luma_padding_left
    pad_right := b.luma_padding_right
    pad_top := b.luma_padding_top
    pad_bottom := b.luma_padding_bottom }

/-- The chroma plane geometry `FrameBuilder::build` computes from the
chroma dimensions and the subsample ratio `(ss_x, ss_y)`. -/
def chroma_geometry (b : FrameBuilder) (chroma_width chroma_height ss_x ss_y : Nat) :
    PlaneGeometry :=
  { width := chroma_width
    height := chroma_height
    stride :=
      chroma_width + b.luma_padding_left / ss_x + b.luma_padding_right / ss_x
    pad_left := b.luma_padding_left / ss_x
    pad_right := b.luma_padding_right / ss_x
    pad_top := b.luma_padding_top / ss_y
    pad_bottom := b.luma_padding_bottom / ss_y }

/-- `FrameBuilder::build`, with the element byte width
(`size_of::<T>()`, 1 or 2) and the const generic `BIT_DEPTH` passed as
explicit arguments. The inner `none` branch of the ratio match embeds
the source's `.expect("not monochrome")`, which is unreachable: a
chroma-dimension result exists only when a subsample ratio exists. -/
def build (b : FrameBuilder) (byte_width BIT_DEPTH : Nat) : Except Error Frame :=
  if BIT_DEPTH < 8 ∨ 16 < BIT_DEPTH then
    .error (.UnsupportedBitDepth BIT_DEPTH)
  else if (byte_width = 1 ∧ BIT_DEPTH ≠ 8) ∨ (byte_width = 2 ∧ BIT_DEPTH ≤ 8) then
    .error .DataTypeMismatch
  else if ¬ b.subsampling.has_chroma then
    .ok
      { y_plane := Plane.new b.luma_geometry
        u_plane := none
        v_plane := none
        subsampling := b.subsampling }
  else
    match b.subsampling.chroma_dimensions b.width b.height with
    | none => .error .UnsupportedResolution
    | some (chroma_width, chroma_height) =>
      match b.subsampling.subsample_ratio with
      | none => .error .UnsupportedResolution
      | some (ss_x, ss_y) =>
        if b.luma_padding_left % ss_x > 0 ∨ b.luma_padding_right % ss_x > 0 ∨
            b.luma_padding_top % ss_y > 0 ∨ b.luma_padding_bottom % ss_y > 0 then
          .error .UnsupportedResolution
        else
          .ok
            { y_plane := Plane.new b.luma_geometry
              u_plane :=
                some (Plane.new (b.chroma_geometry chroma_width chroma_height ss_x ss_y))
              v_plane :=
                some (Plane.new (b.chroma_geometry chroma_width chroma_height ss_x ss_y))
              subsampling := b.subsampling }

end FrameBuilder

/-! ### List-level lemmas about chunking, flattening and in-place writes -/

/-- Taking `h` chunks (each truncated to `w ≤ n` elements) from chunking
by `n` reads, for each `i < h`, the segment of the underlying list that
starts at `n * i`, provided the list holds at least `n * i + w` elements
there. -/
theorem chunksGo_take_map (n w : Nat) (hw : 0 < w) (hwn : w ≤ n) :
    ∀ (h fuel : Nat) (l : List Nat), h ≤ fuel →
      (∀ i, i < h → n * i + w ≤ l.length) →
      ((chunksGo n fuel l).take h).map (fun r => r.take w)
        = (List.range h).map (fun i => (l.drop (n * i)).take w) := by
  intro h
  induction h with
  | zero => intro fuel l _ _; simp
  | succ k ih =>
    intro fuel l hfuel hlen
    have h0 : w ≤ l.length := by simpa using hlen 0 (Nat.succ_pos k)
    obtain ⟨x, xs, rfl⟩ : ∃ x xs, l = x :: xs := by
      cases l with
      | nil => simp at h0; omega
      | cons a as => exact ⟨a, as, rfl⟩
    obtain ⟨f, rfl⟩ : ∃ f, fuel = f + 1 := ⟨fuel - 1, by omega⟩
    rw [chunksGo]
    simp only [List.take_succ_cons, List.map_cons, List.range_succ_eq_map,
      List.map_map, Nat.mul_zero, List.drop_zero]
    congr 1
    · rw [List.take_take, Nat.min_eq_left hwn]
    · rw [ih f ((x :: xs).drop n) (by omega) ?_]
      · apply List.map_congr_left
        intro i _
        simp only [Function.comp_apply, List.drop_drop, Nat.succ_eq_add_one]
        rw [Nat.mul_add, Nat.mul_one, Nat.add_comm n (n * i)]
      · intro i hi
        have hnext := hlen (i + 1) (by omega)
        rw [Nat.mul_succ] at hnext
        simp only [List.length_drop]
        omega

/-- The `take`/`map` view of `rows()` over a whole-list chunking. -/
theorem listChunks_take_map (n w : Nat) (hw : 0 < w) (hwn : w ≤ n) (h : Nat)
    (l : List Nat) (hlen : ∀ i, i < h → n * i + w ≤ l.length) :
    ((listChunks n l).take h).map (fun r => r.take w)
      = (List.range h).map (fun i => (l.drop (n * i)).take w) := by
  apply chunksGo_take_map n w hw hwn h l.length l ?_ hlen
  rcases Nat.eq_zero_or_pos h with rfl | hp
  · omega
  · have hb := hlen (h - 1) (by omega)
    have hnh : h - 1 ≤ n * (h - 1) := Nat.le_mul_of_pos_left _ (by omega)
    omega

/-- Chunking a list whose length is exactly `w * h` yields exactly `h`
chunks, the `i`-th being the segment starting at `w * i`. -/
theorem chunksGo_exact (w : Nat) (hw : 0 < w) :
    ∀ (h fuel : Nat) (l : List Nat), l.length = w * h → h ≤ fuel →
      chunksGo w fuel l = (List.range h).map (fun i => (l.drop (w * i)).take w) := by
  intro h
  induction h with
  | zero =>
    intro fuel l hl _
    have hnil : l = [] := List.eq_nil_of_length_eq_zero (by omega)
    subst hnil
    cases fuel <;> simp [chunksGo]
  | succ k ih =>
    intro fuel l hl hfuel
    rw [Nat.mul_succ] at hl
    obtain ⟨x, xs, rfl⟩ : ∃ x xs, l = x :: xs := by
      cases l with
      | nil => simp at hl; omega
      | cons a as => exact ⟨a, as, rfl⟩
    obtain ⟨f, rfl⟩ : ∃ f, fuel = f + 1 := ⟨fuel - 1, by omega⟩
    rw [chunksGo, ih f ((x :: xs).drop w) (by simp only [List.length_drop]; omega)
      (by omega)]
    simp only [List.range_succ_eq_map, List.map_cons, List.map_map, Nat.mul_zero,
      List.drop_zero]
    congr 1
    apply List.map_congr_left
    intro i _
    simp only [Function.comp_apply, List.drop_drop, Nat.succ_eq_add_one]
    rw [Nat.mul_add, Nat.mul_one, Nat.add_comm w (w * i)]

/-- Whole-list version of `chunksGo_exact`. -/
theorem listChunks_exact (w h : Nat) (hw : 0 < w) (l : List Nat)
    (hl : l.length = w * h) :
    listChunks w l = (List.range h).map (fun i => (l.drop (w * i)).take w) := by
  apply chunksGo_exact w hw h l.length l hl
  have : h ≤ w * h := Nat.le_mul_of_pos_left _ hw
  omega

/-- Reassembling the exact `w`-sized segments of a list of length
`w * h` gives the list back. -/
theorem flatten_range_map (w : Nat) :
    ∀ (h : Nat) (l : List Nat), l.length = w * h →
      ((List.range h).map (fun i => (l.drop (w * i)).take w)).flatten = l := by
  intro h
  induction h with
  | zero =>
    intro l hl
    have hnil : l = [] := List.eq_nil_of_length_eq_zero (by omega)
    simp [hnil]
  | succ k ih =>
    intro l hl
    rw [Nat.mul_succ] at hl
    rw [List.range_succ_eq_map, List.map_cons, List.map_map, List.flatten_cons,
      Nat.mul_zero, List.drop_zero]
    have h2 : (List.range k).map ((fun i => (l.drop (w * i)).take w) ∘ Nat.succ)
        = (List.range k).map (fun i => ((l.drop w).drop (w * i)).take w) := by
      apply List.map_congr_left
      intro i _
      simp only [Function.comp_apply, List.drop_drop]
      rw [Nat.succ_eq_add_one, Nat.mul_add, Nat.mul_one, Nat.add_comm]
    rw [h2, ih (l.drop w) (by simp only [List.length_drop]; omega)]
    exact List.take_append_drop w l

/-- An in-bounds `listWrite` keeps the buffer length. -/
theorem listWrite_length {d : List Nat} {start : Nat} {xs : List Nat}
    (h : start + xs.length ≤ d.length) :
    (listWrite d start xs).length = d.length := by
  simp only [listWrite, List.length_append, List.length_take, List.length_drop]
  omega

/-- An in-bounds `listWrite` leaves every position before `start`
unchanged. -/
theorem listWrite_take {d : List Nat} {start : Nat} {xs : List Nat} {k : Nat}
    (hk : k ≤ start) (hs : start ≤ d.length) :
    (listWrite d start xs).take k = d.take k := by
  unfold listWrite
  rw [List.take_append_of_le_length
      (by simp only [List.length_append, List.length_take]; omega),
    List.take_append_of_le_length (by simp only [List.length_take]; omega),
    List.take_take, Nat.min_eq_left hk]

/-- Dropping down to `start` after an in-bounds `listWrite` exposes the
written elements followed by the unchanged tail. -/
theorem listWrite_drop {d : List Nat} {start : Nat} {xs : List Nat}
    (hs : start ≤ d.length) :
    (listWrite d start xs).drop start = xs ++ d.drop (start + xs.length) := by
  unfold listWrite
  have hlen : (d.take start).length = start := by
    simp only [List.length_take]; omega
  rw [List.drop_append_of_le_length
      (by simp only [List.length_append, List.length_take]; omega)]
  rw [List.drop_append_of_le_length (by simp only [List.length_take]; omega),
    List.drop_take, Nat.sub_self, List.take_zero, List.nil_append]

/-- An in-bounds `writeRows` keeps the buffer length. -/
theorem writeRows_length :
    ∀ (rs : List (List Nat)) (d : List Nat) (o s : Nat),
      (∀ i, i < rs.length → o + s * i + (rs.getD i []).length ≤ d.length) →
      (writeRows d o s rs).length = d.length := by
  intro rs
  induction rs with
  | nil => intro d o s _; rfl
  | cons r rs ih =>
    intro d o s hc
    have h0 : o + r.length ≤ d.length := by simpa using hc 0 (by simp)
    rw [writeRows, ih (listWrite d o r) (o + s) s ?_, listWrite_length h0]
    intro i hi
    have hnext := hc (i + 1) (by simpa using Nat.succ_lt_succ hi)
    rw [Nat.mul_succ] at hnext
    rw [listWrite_length h0]
    simp only [List.getD_cons_succ] at hnext
    omega

/-- `writeRows` with every write at or after position `o` leaves every
position before `o` unchanged. -/
theorem writeRows_take :
    ∀ (rs : List (List Nat)) (d : List Nat) (o s k : Nat),
      k ≤ o →
      (∀ i, i < rs.length → o + s * i + (rs.getD i []).length ≤ d.length) →
      (writeRows d o s rs).take k = d.take k := by
  intro rs
  induction rs with
  | nil => intro d o s k _ _; rfl
  | cons r rs ih =>
    intro d o s k hk hc
    have h0 : o + r.length ≤ d.length := by simpa using hc 0 (by simp)
    rw [writeRows, ih (listWrite d o r) (o + s) s k (by omega) ?_,
      listWrite_take hk (by omega)]
    intro i hi
    have hnext := hc (i + 1) (by simpa using Nat.succ_lt_succ hi)
    rw [Nat.mul_succ] at hnext
    rw [listWrite_length h0]
    simp only [List.getD_cons_succ] at hnext
    omega

/-- Two lists agreeing on their first `m` elements agree on any
sub-segment lying inside those `m` elements. -/
theorem drop_take_of_take_eq {D E : List Nat} {m a b : Nat}
    (h : D.take m = E.take m) (hab : a + b ≤ m) :
    (D.drop a).take b = (E.drop a).take b := by
  have h1 : (D.take m).drop a = (E.take m).drop a := by rw [h]
  rw [List.drop_take, List.drop_take] at h1
  have h2 : ((D.drop a).take (m - a)).take b = ((E.drop a).take (m - a)).take b := by
    rw [h1]
  rwa [List.take_take, List.take_take,
    Nat.min_eq_left (show b ≤ m - a by omega)] at h2

/-- Reading back row `i` after `writeRows`: with rows of width `w ≤ s`
written at `o, o + s, o + 2 * s, …`, all in bounds, the segment of
width `w` at `o + s * i` holds exactly the `i`-th written row. -/
theorem writeRows_read (w : Nat) :
    ∀ (rs : List (List Nat)) (d : List Nat) (o s : Nat),
      (∀ r ∈ rs, r.length = w) → w ≤ s →
      (∀ i, i < rs.length → o + s * i + w ≤ d.length) →
      ∀ i, i < rs.length →
        ((writeRows d o s rs).drop (o + s * i)).take w = rs.getD i [] := by
  intro rs
  induction rs with
  | nil => intro d o s _ _ _ i hi; simp at hi
  | cons r rs ih =>
    intro d o s hlen hws hc i hi
    have hrw : r.length = w := hlen r (by simp)
    have ho : o + w ≤ d.length := by simpa using hc 0 (by simp)
    have hlen1 : (listWrite d o r).length = d.length :=
      listWrite_length (by omega)
    have hcnext : ∀ j, j < rs.length →
        (o + s) + s * j + w ≤ (listWrite d o r).length := by
      intro j hj
      have hnext := hc (j + 1) (by simpa using Nat.succ_lt_succ hj)
      rw [Nat.mul_succ] at hnext
      omega
    rw [writeRows]
    cases i with
    | zero =>
      have hpre : (writeRows (listWrite d o r) (o + s) s rs).take (o + s)
          = (listWrite d o r).take (o + s) := by
        apply writeRows_take rs (listWrite d o r) (o + s) s (o + s) (Nat.le_refl _)
        intro j hj
        have hb := hcnext j hj
        have hjw : (rs.getD j []).length = w := by
          rw [List.getD_eq_getElem rs [] hj]
          exact hlen _ (List.mem_cons_of_mem r (List.getElem_mem hj))
        omega
      rw [Nat.mul_zero, Nat.add_zero, List.getD_cons_zero]
      have hseg : ((writeRows (listWrite d o r) (o + s) s rs).drop o).take w
          = ((listWrite d o r).drop o).take w :=
        drop_take_of_take_eq hpre (by omega)
      rw [hseg, listWrite_drop (by omega), ← hrw, List.take_left]
    | succ j =>
      rw [List.getD_cons_succ,
        show o + s * (j + 1) = (o + s) + s * j by rw [Nat.mul_succ]; omega]
      exact ih (listWrite d o r) (o + s) s (fun r' hr' => hlen r' (by simp [hr']))
        hws hcnext j (by simpa using hi)

/-! ### Plane-level consequences of the construction invariants -/

namespace Plane

/-- For a well-formed plane, the `w`-wide segment of visible row `i`
lies inside the buffer: the arithmetic fact that justifies every
`get_unchecked` in `rows()`/`rows_mut()`. -/
theorem wf_row_bound {p : Plane} (hp : p.WellFormed) {i : Nat}
    (hi : i < p.geometry.height) :
    p.data_origin + p.geometry.stride * i + p.geometry.width ≤ p.data.length := by
  obtain ⟨hw, hh, hs, hl⟩ := hp
  unfold data_origin
  have key : p.geometry.stride * (i + 1 + p.geometry.pad_top)
      ≤ p.geometry.stride *
        (p.geometry.height + p.geometry.pad_top + p.geometry.pad_bottom) :=
    Nat.mul_le_mul_left _ (by omega)
  rw [Nat.mul_add, Nat.mul_add, Nat.mul_one] at key
  omega

/-- For a well-formed plane, `rows()` is exactly the list of the
`height` visible-row segments of the buffer, in top-to-bottom order. -/
theorem rows_eq_of_wf {p : Plane} (hp : p.WellFormed) :
    p.rows = (List.range p.geometry.height).map (fun i =>
      (p.data.drop (p.data_origin + p.geometry.stride * i)).take p.geometry.width) := by
  have hw := hp.1
  have hs := hp.2.2.1
  unfold rows
  rw [listChunks_take_map p.geometry.stride p.geometry.width hw (by omega)
    p.geometry.height (p.data.drop p.data_origin) ?_]
  · apply List.map_congr_left
    intro i _
    rw [List.drop_drop]
  · intro i hi
    have hb := wf_row_bound hp hi
    simp only [List.length_drop]
    omega

/-- For a well-formed plane, `rows()` yields exactly `height` rows. -/
theorem rows_length_of_wf {p : Plane} (hp : p.WellFormed) :
    p.rows.length = p.geometry.height := by
  rw [rows_eq_of_wf hp, List.length_map, List.length_range]

/-- For a well-formed plane, every row of `rows()` has exactly `width`
elements. -/
theorem rows_mem_length_of_wf {p : Plane} (hp : p.WellFormed) :
    ∀ r ∈ p.rows, r.length = p.geometry.width := by
  rw [rows_eq_of_wf hp]
  intro r hr
  obtain ⟨i, hi, rfl⟩ := List.mem_map.mp hr
  rw [List.mem_range] at hi
  have hb := wf_row_bound hp hi
  simp only [List.length_take, List.length_drop]
  omega

/-- For a well-formed plane, the `i`-th row of `rows()`. -/
theorem rows_getD_of_wf {p : Plane} (hp : p.WellFormed) {i : Nat}
    (hi : i < p.geometry.height) :
    p.rows.getD i []
      = (p.data.drop (p.data_origin + p.geometry.stride * i)).take p.geometry.width := by
  rw [rows_eq_of_wf hp]
  have hlt : i < ((List.range p.geometry.height).map (fun i =>
      (p.data.drop (p.data_origin + p.geometry.stride * i)).take
        p.geometry.width)).length := by
    simpa using hi
  rw [List.getD_eq_getElem _ [] hlt, List.getElem_map, List.getElem_range]

/-- For a well-formed plane, the pixel count of `pixels()` is
`width * height`. -/
theorem pixels_length_of_wf {p : Plane} (hp : p.WellFormed) :
    p.pixels.length = p.geometry.width * p.geometry.height := by
  unfold pixels
  rw [List.length_flatten]
  have hmap : p.rows.map List.length
      = List.replicate p.geometry.height p.geometry.width := by
    apply List.eq_replicate_iff.mpr
    refine ⟨by rw [List.length_map, rows_length_of_wf hp], ?_⟩
    intro x hx
    obtain ⟨r, hr, rfl⟩ := List.mem_map.mp hx
    exact rows_mem_length_of_wf hp r hr
  rw [hmap, List.sum_replicate, smul_eq_mul, Nat.mul_comm]

/-- A plane freshly allocated by `Plane::new` is well-formed whenever
its geometry has positive dimensions and the builder stride. -/
theorem new_wf {g : PlaneGeometry} (hw : 0 < g.width) (hh : 0 < g.height)
    (hs : g.stride = g.width + g.pad_left + g.pad_right) :
    (Plane.new g).WellFormed := by
  refine ⟨hw, hh, hs, ?_⟩
  simp [Plane.new, List.length_replicate]

end Plane

/-! ### Byte-serialization lemmas -/

/-- Segment `i` of the flattening of equal-length lists is the `i`-th
list. -/
theorem flatten_drop_take (k : Nat) :
    ∀ (ls : List (List Nat)), (∀ r ∈ ls, r.length = k) →
      ∀ i, i < ls.length →
        ((ls.flatten).drop (k * i)).take k = ls.getD i [] := by
  intro ls
  induction ls with
  | nil => intro _ i hi; simp at hi
  | cons r rs ih =>
    intro hlen i hi
    have hr : r.length = k := hlen r (by simp)
    cases i with
    | zero =>
      simp only [Nat.mul_zero, List.drop_zero, List.flatten_cons, List.getD_cons_zero]
      rw [← hr, List.take_left]
    | succ j =>
      simp only [List.flatten_cons, List.getD_cons_succ]
      rw [show k * (j + 1) = r.length + k * j by rw [Nat.mul_succ]; omega,
        List.drop_append]
      exact ih (fun r' hr' => hlen r' (List.mem_cons_of_mem r hr')) j
        (by simpa using hi)

/-- `flatMap` distributes over `flatten`. -/
theorem flatMap_flatten (f : Nat → List Nat) :
    ∀ ls : List (List Nat),
      (ls.flatten).flatMap f = (ls.map (fun r => r.flatMap f)).flatten := by
  intro ls
  induction ls with
  | nil => rfl
  | cons r rs ih => simp only [List.flatten_cons, List.flatMap_append, ih, List.map_cons]

/-- The length of a `flatMap` with a constant-size image. -/
theorem flatMap_const_length (bw : Nat) (f : Nat → List Nat)
    (hf : ∀ x, (f x).length = bw) :
    ∀ l : List Nat, (l.flatMap f).length = bw * l.length := by
  intro l
  induction l with
  | nil => simp
  | cons x xs ih =>
    rw [List.flatMap_cons, List.length_append, hf, ih, List.length_cons, Nat.mul_succ]
    omega

/-- `flatMap` of a singleton-valued function is `map`. -/
theorem flatMap_singleton_fun (f : Nat → Nat) :
    ∀ l : List Nat, l.flatMap (fun x => [f x]) = l.map f := by
  intro l
  induction l with
  | nil => rfl
  | cons x xs ih => simp only [List.flatMap_cons, List.map_cons, ih, List.singleton_append]

/-- Decoding the little-endian two-byte encoding of 16-bit sample
values gives the values back. -/
theorem decodePairs_encode :
    ∀ l : List Nat, (∀ x ∈ l, x < 65536) →
      decodePairs (l.flatMap (fun pix => [pix % 256, pix / 256 % 256])) = l := by
  intro l
  induction l with
  | nil => intro _; rfl
  | cons x xs ih =>
    intro hmem
    have hx : x < 65536 := hmem x (by simp)
    simp only [List.flatMap_cons, List.cons_append, List.nil_append]
    rw [decodePairs]
    congr 1
    · have hdiv : x / 256 < 256 := by omega
      rw [Nat.mod_eq_of_lt hdiv]
      omega
    · exact ih (fun y hy => hmem y (List.mem_cons_of_mem x hy))

/-! ### Facts about the builder validation -/

/-- A subsampling with a subsample ratio has chroma planes. -/
theorem ChromaSubsampling.has_chroma_of_ratio {s : ChromaSubsampling} {rx ry : Nat}
    (h : s.subsample_ratio = some (rx, ry)) : s.has_chroma := by
  cases s <;> simp_all [ChromaSubsampling.subsample_ratio, ChromaSubsampling.has_chroma]

/-- A subsampling without chroma planes is `Monochrome`. -/
theorem ChromaSubsampling.eq_monochrome_of_not_has_chroma {s : ChromaSubsampling}
    (h : ¬ s.has_chroma) : s = ChromaSubsampling.Monochrome := by
  cases s <;> simp_all [ChromaSubsampling.has_chroma]

/-- Unpacking a successful `chroma_dimensions` call: the ratio exists,
both divisions are exact, and (for positive luma dimensions) both
quotients are positive. -/
theorem ChromaSubsampling.chroma_dimensions_some {s : ChromaSubsampling}
    {w h cw ch : Nat} (hcd : s.chroma_dimensions w h = some (cw, ch))
    (hw : 0 < w) (hh : 0 < h) :
    ∃ rx ry, s.subsample_ratio = some (rx, ry) ∧
      w % rx = 0 ∧ h % ry = 0 ∧ cw = w / rx ∧ ch = h / ry ∧ 0 < cw ∧ 0 < ch := by
  cases s <;>
    simp only [ChromaSubsampling.chroma_dimensions,
      ChromaSubsampling.subsample_ratio] at hcd
  case Yuv420 =>
    split at hcd
    · obtain ⟨hcw, hch⟩ := Prod.mk.inj (Option.some.inj hcd)
      exact ⟨2, 2, rfl, by omega, by omega, hcw.symm, hch.symm, by omega, by omega⟩
    · exact absurd hcd (by simp)
  case Yuv422 =>
    split at hcd
    · obtain ⟨hcw, hch⟩ := Prod.mk.inj (Option.some.inj hcd)
      exact ⟨2, 1, rfl, by omega, by omega, hcw.symm, hch.symm, by omega, by omega⟩
    · exact absurd hcd (by simp)
  case Yuv444 =>
    split at hcd
    · obtain ⟨hcw, hch⟩ := Prod.mk.inj (Option.some.inj hcd)
      exact ⟨1, 1, rfl, by omega, by omega, hcw.symm, hch.symm, by omega, by omega⟩
    · exact absurd hcd (by simp)
  case Monochrome => exact absurd hcd (by simp)

/-- Shape of every frame a successful `build` returns: the luma plane
is freshly allocated from the builder's luma geometry, and the chroma
planes are either both absent (Monochrome) or both freshly allocated
from the derived chroma geometry, with all the divisibility checks
having passed. -/
theorem build_ok_shape {b : FrameBuilder} {byte_width BIT_DEPTH : Nat} {f : Frame}
    (h : b.build byte_width BIT_DEPTH = .ok f) :
    f.subsampling = b.subsampling ∧
    f.y_plane = Plane.new b.luma_geometry ∧
    ((b.subsampling = .Monochrome ∧ f.u_plane = none ∧ f.v_plane = none) ∨
      (∃ cw ch rx ry,
        b.subsampling.chroma_dimensions b.width b.height = some (cw, ch) ∧
        b.subsampling.subsample_ratio = some (rx, ry) ∧
        b.luma_padding_left % rx = 0 ∧ b.luma_padding_right % rx = 0 ∧
        b.luma_padding_top % ry = 0 ∧ b.luma_padding_bottom % ry = 0 ∧
        f.u_plane = some (Plane.new (b.chroma_geometry cw ch rx ry)) ∧
        f.v_plane = some (Plane.new (b.chroma_geometry cw ch rx ry)))) := by
  unfold FrameBuilder.build at h
  split at h
  · simp at h
  split at h
  · simp at h
  split at h
  case isTrue hmono =>
    obtain rfl := (Except.ok.inj h).symm
    exact ⟨rfl, rfl,
      Or.inl ⟨ChromaSubsampling.eq_monochrome_of_not_has_chroma hmono, rfl, rfl⟩⟩
  case isFalse =>
    split at h
    · simp at h
    next cw ch hcd =>
      split at h
      · simp at h
      next rx ry hr =>
        split at h
        · simp at h
        next hpad =>
          obtain rfl := (Except.ok.inj h).symm
          push_neg at hpad
          exact ⟨rfl, rfl, Or.inr ⟨cw, ch, rx, ry, hcd, hr,
            by omega, by omega, by omega, by omega, rfl, rfl⟩⟩

/-- Every plane of a successfully built frame is well-formed: the
construction funnel establishes the invariants `rows()` relies on. -/
theorem build_planes_wf {b : FrameBuilder} {byte_width BIT_DEPTH : Nat} {f : Frame}
    (hw : 0 < b.width) (hh : 0 < b.height)
    (h : b.build byte_width BIT_DEPTH = .ok f) :
    f.y_plane.WellFormed ∧
    (∀ u, f.u_plane = some u → u.WellFormed) ∧
    (∀ v, f.v_plane = some v → v.WellFormed) := by
  obtain ⟨-, hy, hcases⟩ := build_ok_shape h
  have hywf : f.y_plane.WellFormed := by
    rw [hy]; exact Plane.new_wf hw hh rfl
  rcases hcases with ⟨-, hu, hv⟩ | ⟨cw, ch, rx, ry, hcd, hr, -, -, -, -, hu, hv⟩
  · exact ⟨hywf, by simp [hu], by simp [hv]⟩
  · have hcwf : (Plane.new (b.chroma_geometry cw ch rx ry)).WellFormed := by
      obtain ⟨rx', ry', hr', -, -, -, -, hcwpos, hchpos⟩ :=
        ChromaSubsampling.chroma_dimensions_some hcd hw hh
      exact Plane.new_wf hcwpos hchpos rfl
    refine ⟨hywf, ?_, ?_⟩
    · intro u hu'
      rw [hu] at hu'
      exact (Option.some.inj hu') ▸ hcwf
    · intro v hv'
      rw [hv] at hv'
      exact (Option.some.inj hv') ▸ hcwf

/-- The joint guarantee `rows()` (and `rows_mut()`, which performs the
identical arithmetic) provides on a plane: exactly `height` rows, each
of exactly `width` elements, row `i` being the visible segment starting
at `data_origin + stride * i` (top-to-bottom, skipping all padding),
and every elided bounds check justified: the slice from `data_origin`
and each truncated row segment lie inside the allocated buffer. -/
def Plane.rowsOk (p : Plane) : Prop :=
  p.rows.length = p.geometry.height ∧
  (∀ r ∈ p.rows, r.length = p.geometry.width) ∧
  p.rows = (List.range p.geometry.height).map (fun i =>
    (p.data.drop (p.data_origin + p.geometry.stride * i)).take p.geometry.width) ∧
  p.data_origin ≤ p.data.length ∧
  (∀ i, i < p.geometry.height →
    p.data_origin + p.geometry.stride * i + p.geometry.width ≤ p.data.length)

/-- Well-formedness gives the whole `rows()` guarantee. -/
theorem Plane.rowsOk_of_wf {p : Plane} (hp : p.WellFormed) : p.rowsOk := by
  refine ⟨rows_length_of_wf hp, rows_mem_length_of_wf hp, rows_eq_of_wf hp, ?_,
    fun i hi => wf_row_bound hp hi⟩
  have hb := wf_row_bound hp (show 0 < p.geometry.height from hp.2.1)
  omega

/-- The decoded length is half the byte count. -/
theorem decodePairs_length :
    ∀ l : List Nat, (decodePairs l).length = l.length / 2
  | [] => by simp [decodePairs]
  | [a] => by simp [decodePairs]
  | a :: b :: rest => by
    rw [decodePairs, List.length_cons, decodePairs_length rest]
    simp only [List.length_cons]
    omega

/-! ### The claims -/

/-- C1: for every plane of a frame returned by `FrameBuilder::build`,
the `rows()` iterator (and `rows_mut()`, which performs the identical
index arithmetic) yields exactly `height` row slices of exactly `width`
elements, in top-to-bottom order skipping all padding, and every
internal unchecked buffer access — slicing from `data_origin`, chunking
by `stride`, truncating each chunk to `width` — lies within the
allocated buffer. -/
theorem build_rows_safe (b : FrameBuilder) (byte_width BIT_DEPTH : Nat)
    (f : Frame) (hw : 0 < b.width) (hh : 0 < b.height)
    (hok : b.build byte_width BIT_DEPTH = .ok f) :
    f.y_plane.rowsOk ∧
    (∀ u, f.u_plane = some u → u.rowsOk) ∧
    (∀ v, f.v_plane = some v → v.rowsOk) := by
  obtain ⟨hywf, huwf, hvwf⟩ := build_planes_wf hw hh hok
  exact ⟨Plane.rowsOk_of_wf hywf, fun u hu => Plane.rowsOk_of_wf (huwf u hu),
    fun v hv => Plane.rowsOk_of_wf (hvwf v hv)⟩

/-- Witness for C1 at a concrete 2×2 Yuv420 build. -/
theorem build_rows_safe_witness :
    0 < (FrameBuilder.mk 2 2 .Yuv420 0 0 0 0).width ∧
    0 < (FrameBuilder.mk 2 2 .Yuv420 0 0 0 0).height ∧
    (FrameBuilder.mk 2 2 .Yuv420 0 0 0 0).build 1 8 = .ok
      { y_plane := Plane.new ⟨2, 2, 2, 0, 0, 0, 0⟩,
        u_plane := some (Plane.new ⟨1, 1, 1, 0, 0, 0, 0⟩),
        v_plane := some (Plane.new ⟨1, 1, 1, 0, 0, 0, 0⟩),
        subsampling := .Yuv420 } ∧
    ({ y_plane := Plane.new ⟨2, 2, 2, 0, 0, 0, 0⟩,
       u_plane := some (Plane.new ⟨1, 1, 1, 0, 0, 0, 0⟩),
       v_plane := some (Plane.new ⟨1, 1, 1, 0, 0, 0, 0⟩),
       subsampling := .Yuv420 } : Frame).y_plane.rowsOk :=
  ⟨by decide, by decide, by decide,
    (build_rows_safe (FrameBuilder.mk 2 2 .Yuv420 0 0 0 0) 1 8 _ (by decide)
        (by decide) (by decide)).1⟩

/-- C3: `chroma_dimensions` returns `none` when the subsampling is
Monochrome or when either luma dimension is not exactly divisible by
its ratio component (Yuv420 ratio `(2,2)`, Yuv422 `(2,1)`, Yuv444
`(1,1)`), and otherwise the exact integer quotients; in particular
Yuv420 halves both even dimensions and rejects odd ones, Yuv444 is the
identity, and Monochrome always returns `none`. -/
theorem chroma_dimensions_cases :
    (∀ w h : Nat, ChromaSubsampling.Monochrome.chroma_dimensions w h = none) ∧
    (∀ (s : ChromaSubsampling) (w h rx ry : Nat), s.subsample_ratio = some (rx, ry) →
      ((w % rx = 0 ∧ h % ry = 0) → s.chroma_dimensions w h = some (w / rx, h / ry)) ∧
      (¬ (w % rx = 0 ∧ h % ry = 0) → s.chroma_dimensions w h = none)) ∧
    ChromaSubsampling.Yuv420.subsample_ratio = some (2, 2) ∧
    ChromaSubsampling.Yuv422.subsample_ratio = some (2, 1) ∧
    ChromaSubsampling.Yuv444.subsample_ratio = some (1, 1) ∧
    ChromaSubsampling.Monochrome.subsample_ratio = none ∧
    (∀ w h : Nat, w % 2 = 0 → h % 2 = 0 →
      ChromaSubsampling.Yuv420.chroma_dimensions w h = some (w / 2, h / 2)) ∧
    (∀ w h : Nat, w % 2 = 1 ∨ h % 2 = 1 →
      ChromaSubsampling.Yuv420.chroma_dimensions w h = none) ∧
    (∀ w h : Nat, ChromaSubsampling.Yuv444.chroma_dimensions w h = some (w, h)) := by
  refine ⟨fun w h => rfl, ?_, rfl, rfl, rfl, rfl, ?_, ?_, ?_⟩
  · intro s w h rx ry hr
    constructor
    · intro hdiv
      simp [ChromaSubsampling.chroma_dimensions, hr, hdiv]
    · intro hdiv
      simp [ChromaSubsampling.chroma_dimensions, hr, hdiv]
  · intro w h h1 h2
    simp [ChromaSubsampling.chroma_dimensions, ChromaSubsampling.subsample_ratio,
      h1, h2]
  · intro w h hodd
    simp only [ChromaSubsampling.chroma_dimensions, ChromaSubsampling.subsample_ratio]
    rw [if_neg (by omega)]
  · intro w h
    simp [ChromaSubsampling.chroma_dimensions, ChromaSubsampling.subsample_ratio,
      Nat.mod_one, Nat.div_one]

/-- Witness for C3 at 1920×1080 and 1919×1080. -/
theorem chroma_dimensions_cases_witness :
    ChromaSubsampling.Yuv420.subsample_ratio = some (2, 2) ∧
    ChromaSubsampling.Yuv420.chroma_dimensions 1920 1080 = some (960, 540) ∧
    ChromaSubsampling.Yuv420.chroma_dimensions 1919 1080 = none :=
  ⟨chroma_dimensions_cases.2.2.1,
    ((chroma_dimensions_cases.2.2.2.2.2.2.1 1920 1080 (by decide) (by decide)).trans
      (by decide)),
    chroma_dimensions_cases.2.2.2.2.2.2.2.1 1919 1080 (Or.inl (by decide))⟩

/-- The state `Plane::new` leaves a buffer in: the exact length
`stride * (height + pad_top + pad_bottom)`, every element zero. -/
def Plane.Fresh (p : Plane) : Prop :=
  p.data.length =
    p.geometry.stride *
      (p.geometry.height + p.geometry.pad_top + p.geometry.pad_bottom) ∧
  ∀ x ∈ p.data, x = 0

/-- C5: every plane created by `Plane::new` — hence every plane of a
freshly built frame — owns a buffer of length exactly
`stride * (height + pad_top + pad_bottom)` with every element zero. -/
theorem plane_new_fresh :
    (∀ g : PlaneGeometry, (Plane.new g).Fresh) ∧
    (∀ (b : FrameBuilder) (byte_width BIT_DEPTH : Nat) (f : Frame),
      b.build byte_width BIT_DEPTH = .ok f →
      f.y_plane.Fresh ∧ (∀ u, f.u_plane = some u → u.Fresh) ∧
        (∀ v, f.v_plane = some v → v.Fresh)) := by
  have hfresh : ∀ g : PlaneGeometry, (Plane.new g).Fresh := fun g =>
    ⟨by simp [Plane.new], fun x hx => List.eq_of_mem_replicate hx⟩
  refine ⟨hfresh, ?_⟩
  intro b bw d f hok
  obtain ⟨-, hy, hcases⟩ := build_ok_shape hok
  have hyf : f.y_plane.Fresh := by rw [hy]; exact hfresh _
  rcases hcases with ⟨-, hu, hv⟩ | ⟨cw, ch, rx, ry, -, -, -, -, -, -, hu, hv⟩
  · exact ⟨hyf, by simp [hu], by simp [hv]⟩
  · refine ⟨hyf, ?_, ?_⟩
    · intro u hu'; rw [hu] at hu'; exact (Option.some.inj hu') ▸ hfresh _
    · intro v hv'; rw [hv] at hv'; exact (Option.some.inj hv') ▸ hfresh _

/-- Witness for C5 at a concrete padded geometry and a concrete
Monochrome build. -/
theorem plane_new_fresh_witness :
    (Plane.new ⟨3, 2, 6, 1, 2, 1, 1⟩).Fresh ∧
    (FrameBuilder.mk 2 2 .Monochrome 1 2 3 4).build 1 8 = .ok
      { y_plane := Plane.new ⟨2, 2, 5, 1, 2, 3, 4⟩, u_plane := none,
        v_plane := none, subsampling := .Monochrome } ∧
    ({ y_plane := Plane.new ⟨2, 2, 5, 1, 2, 3, 4⟩, u_plane := none,
       v_plane := none, subsampling := .Monochrome } : Frame).y_plane.Fresh :=
  ⟨plane_new_fresh.1 _, by decide,
    (plane_new_fresh.2 (FrameBuilder.mk 2 2 .Monochrome 1 2 3 4) 1 8 _ (by decide)).1⟩

/-- C2: `build` reports the first failing check in order — bit depth
outside `[8,16]` gives `UnsupportedBitDepth{found}`; then a pixel byte
width / bit depth mismatch gives `DataTypeMismatch`; then, for a
chroma-bearing subsampling, non-divisible luma dimensions (a `none`
from `chroma_dimensions`) or any non-divisible luma padding give
`UnsupportedResolution`; a Monochrome build passes every padding
combination and returns a frame with no chroma planes. -/
theorem build_validation_order (b : FrameBuilder) (byte_width BIT_DEPTH : Nat) :
    ((BIT_DEPTH < 8 ∨ 16 < BIT_DEPTH) →
      b.build byte_width BIT_DEPTH = .error (.UnsupportedBitDepth BIT_DEPTH)) ∧
    (8 ≤ BIT_DEPTH → BIT_DEPTH ≤ 16 →
      ((byte_width = 1 ∧ BIT_DEPTH ≠ 8) ∨ (byte_width = 2 ∧ BIT_DEPTH ≤ 8)) →
      b.build byte_width BIT_DEPTH = .error .DataTypeMismatch) ∧
    (8 ≤ BIT_DEPTH → BIT_DEPTH ≤ 16 →
      ¬ ((byte_width = 1 ∧ BIT_DEPTH ≠ 8) ∨ (byte_width = 2 ∧ BIT_DEPTH ≤ 8)) →
      b.subsampling.has_chroma →
      b.subsampling.chroma_dimensions b.width b.height = none →
      b.build byte_width BIT_DEPTH = .error .UnsupportedResolution) ∧
    (∀ cw ch rx ry,
      8 ≤ BIT_DEPTH → BIT_DEPTH ≤ 16 →
      ¬ ((byte_width = 1 ∧ BIT_DEPTH ≠ 8) ∨ (byte_width = 2 ∧ BIT_DEPTH ≤ 8)) →
      b.subsampling.chroma_dimensions b.width b.height = some (cw, ch) →
      b.subsampling.subsample_ratio = some (rx, ry) →
      (b.luma_padding_left % rx > 0 ∨ b.luma_padding_right % rx > 0 ∨
        b.luma_padding_top % ry > 0 ∨ b.luma_padding_bottom % ry > 0) →
      b.build byte_width BIT_DEPTH = .error .UnsupportedResolution) ∧
    (8 ≤ BIT_DEPTH → BIT_DEPTH ≤ 16 →
      ¬ ((byte_width = 1 ∧ BIT_DEPTH ≠ 8) ∨ (byte_width = 2 ∧ BIT_DEPTH ≤ 8)) →
      b.subsampling = .Monochrome →
      b.build byte_width BIT_DEPTH = .ok
        { y_plane := Plane.new b.luma_geometry, u_plane := none, v_plane := none,
          subsampling := b.subsampling }) := by
  refine ⟨?_, ?_, ?_, ?_, ?_⟩
  · intro hd
    unfold FrameBuilder.build
    rw [if_pos (by omega)]
  · intro h1 h2 hmm
    unfold FrameBuilder.build
    rw [if_neg (by omega), if_pos hmm]
  · intro h1 h2 hmm hch hcd
    unfold FrameBuilder.build
    rw [if_neg (by omega), if_neg hmm, if_neg (not_not_intro hch)]
    simp only [hcd]
  · intro cw ch rx ry h1 h2 hmm hcd hr hpad
    unfold FrameBuilder.build
    rw [if_neg (by omega), if_neg hmm,
      if_neg (not_not_intro (ChromaSubsampling.has_chroma_of_ratio hr))]
    simp only [hcd, hr]
    rw [if_pos hpad]
  · intro h1 h2 hmm hmono
    unfold FrameBuilder.build
    rw [if_neg (by omega), if_neg hmm,
      if_pos (show ¬ b.subsampling.has_chroma by
        rw [hmono]; simp [ChromaSubsampling.has_chroma])]

/-- Witness for C2: a Monochrome build with arbitrary padding at bit
depth 10 on a two-byte element. -/
theorem build_validation_order_witness :
    (8 : Nat) ≤ 10 ∧ (10 : Nat) ≤ 16 ∧
    ¬ (((2 : Nat) = 1 ∧ (10 : Nat) ≠ 8) ∨ ((2 : Nat) = 2 ∧ (10 : Nat) ≤ 8)) ∧
    (FrameBuilder.mk 4 4 .Monochrome 15 3 1 7).subsampling = .Monochrome ∧
    (FrameBuilder.mk 4 4 .Monochrome 15 3 1 7).build 2 10 = .ok
      { y_plane := Plane.new (FrameBuilder.mk 4 4 .Monochrome 15 3 1 7).luma_geometry,
        u_plane := none, v_plane := none,
        subsampling := (FrameBuilder.mk 4 4 .Monochrome 15 3 1 7).subsampling } :=
  ⟨by decide, by decide, by decide, by decide,
    (build_validation_order (FrameBuilder.mk 4 4 .Monochrome 15 3 1 7) 2 10).2.2.2.2
      (by decide) (by decide) (by decide) (by decide)⟩

/-- C4: a successful chroma-bearing build returns U and V planes of
identical geometry (and identical freshly-zeroed, independently-owned
buffers), with each chroma padding the exact quotient of the
corresponding luma padding by its axis ratio component, chroma stride
`chroma_width + chroma_pad_left + chroma_pad_right`, and visible chroma
dimensions exactly `chroma_dimensions(width, height)` regardless of
padding. -/
theorem build_chroma_geometry (b : FrameBuilder) (byte_width BIT_DEPTH cw ch rx ry : Nat)
    (h1 : 8 ≤ BIT_DEPTH) (h2 : BIT_DEPTH ≤ 16)
    (hmm : ¬ ((byte_width = 1 ∧ BIT_DEPTH ≠ 8) ∨ (byte_width = 2 ∧ BIT_DEPTH ≤ 8)))
    (hcd : b.subsampling.chroma_dimensions b.width b.height = some (cw, ch))
    (hr : b.subsampling.subsample_ratio = some (rx, ry))
    (hpl : b.luma_padding_left % rx = 0) (hpr : b.luma_padding_right % rx = 0)
    (hpt : b.luma_padding_top % ry = 0) (hpb : b.luma_padding_bottom % ry = 0) :
    ∃ u v : Plane,
      b.build byte_width BIT_DEPTH = .ok
        { y_plane := Plane.new b.luma_geometry, u_plane := some u, v_plane := some v,
          subsampling := b.subsampling } ∧
      u.geometry = v.geometry ∧ u = v ∧
      u.geometry.width = cw ∧ u.geometry.height = ch ∧
      u.geometry.pad_left = b.luma_padding_left / rx ∧
      u.geometry.pad_right = b.luma_padding_right / rx ∧
      u.geometry.pad_top = b.luma_padding_top / ry ∧
      u.geometry.pad_bottom = b.luma_padding_bottom / ry ∧
      u.geometry.stride
        = u.geometry.width + u.geometry.pad_left + u.geometry.pad_right := by
  refine ⟨Plane.new (b.chroma_geometry cw ch rx ry),
    Plane.new (b.chroma_geometry cw ch rx ry), ?_, rfl, rfl, rfl, rfl, rfl, rfl,
    rfl, rfl, rfl⟩
  unfold FrameBuilder.build
  rw [if_neg (by omega), if_neg hmm,
    if_neg (not_not_intro (ChromaSubsampling.has_chroma_of_ratio hr))]
  simp only [hcd, hr]
  rw [if_neg (by omega)]

/-- Witness for C4: a Yuv420 build with all four luma paddings 16 has
chroma padding 8 on each side. -/
theorem build_chroma_geometry_witness :
    (FrameBuilder.mk 4 4 .Yuv420 16 16 16 16).subsampling.chroma_dimensions 4 4
      = some (2, 2) ∧
    (FrameBuilder.mk 4 4 .Yuv420 16 16 16 16).subsampling.subsample_ratio
      = some (2, 2) ∧
    (∃ u v : Plane,
      (FrameBuilder.mk 4 4 .Yuv420 16 16 16 16).build 1 8 = .ok
        { y_plane := Plane.new (FrameBuilder.mk 4 4 .Yuv420 16 16 16 16).luma_geometry,
          u_plane := some u, v_plane := some v,
          subsampling := (FrameBuilder.mk 4 4 .Yuv420 16 16 16 16).subsampling } ∧
      u.geometry = v.geometry ∧ u = v ∧
      u.geometry.width = 2 ∧ u.geometry.height = 2 ∧
      u.geometry.pad_left = 16 / 2 ∧ u.geometry.pad_right = 16 / 2 ∧
      u.geometry.pad_top = 16 / 2 ∧ u.geometry.pad_bottom = 16 / 2 ∧
      u.geometry.stride
        = u.geometry.width + u.geometry.pad_left + u.geometry.pad_right) :=
  ⟨by decide, by decide,
    build_chroma_geometry (FrameBuilder.mk 4 4 .Yuv420 16 16 16 16) 1 8 2 2 2 2
      (by decide) (by decide) (by decide) (by decide) (by decide) (by decide)
      (by decide) (by decide) (by decide)⟩

/-- The element `i < h` of a map over `List.range h`, as `getD`. -/
theorem getD_range_map (h : Nat) (f : Nat → List Nat) {i : Nat} (hi : i < h) :
    ((List.range h).map f).getD i [] = f i := by
  rw [List.getD_eq_getElem _ [] (by simpa using hi), List.getElem_map,
    List.getElem_range]

/-- Writing `height` rows of `width` elements at the visible row
positions of a well-formed plane makes `rows()` return exactly those
rows. -/
theorem write_rows_plane_rows (p : Plane) (hp : p.WellFormed) (rs : List (List Nat))
    (hrs_len : rs.length = p.geometry.height)
    (hrl : ∀ r ∈ rs, r.length = p.geometry.width) :
    (⟨writeRows p.data p.data_origin p.geometry.stride rs, p.geometry⟩ : Plane).rows
      = rs := by
  have hw := hp.1
  have hh := hp.2.1
  have hs := hp.2.2.1
  have hbound : ∀ i, i < rs.length →
      p.data_origin + p.geometry.stride * i + p.geometry.width ≤ p.data.length := by
    intro i hi
    exact Plane.wf_row_bound hp (hrs_len ▸ hi)
  have hboundD : ∀ i, i < rs.length →
      p.data_origin + p.geometry.stride * i + (rs.getD i []).length
        ≤ p.data.length := by
    intro i hi
    have hb := hbound i hi
    rw [List.getD_eq_getElem _ [] hi, hrl _ (List.getElem_mem hi)]
    omega
  have hqlen : (writeRows p.data p.data_origin p.geometry.stride rs).length
      = p.data.length := writeRows_length _ _ _ _ hboundD
  have hqwf : (⟨writeRows p.data p.data_origin p.geometry.stride rs, p.geometry⟩ :
      Plane).WellFormed := ⟨hw, hh, hs, by rw [hqlen]; exact hp.2.2.2⟩
  have hread := writeRows_read p.geometry.width rs p.data p.data_origin
    p.geometry.stride hrl (by omega) hbound
  rw [Plane.rows_eq_of_wf hqwf]
  apply List.ext_getElem (by simp [hrs_len])
  intro i h1 h2
  simp only [List.getElem_map, List.getElem_range]
  have hr := hread i h2
  rw [← List.getD_eq_getElem rs [] h2, ← hr]
  rfl

/-- Mapping `getD` over the index range of a list reproduces it. -/
theorem range_map_getD (h : Nat) (ls : List (List Nat)) (hlen : ls.length = h) :
    (List.range h).map (fun i => ls.getD i []) = ls := by
  apply List.ext_getElem (by simp [hlen])
  intro i h1 h2
  simp only [List.getElem_map, List.getElem_range]
  rw [List.getD_eq_getElem _ [] h2]

/-- `byte_data` of the 1-byte kind is one byte per pixel. -/
theorem byte_data_one (p : Plane) :
    p.byte_data 1 = p.pixels.map (fun x => x % 256) := by
  unfold Plane.byte_data
  exact flatMap_singleton_fun (fun x => x % 256) p.pixels

/-- `byte_data` of the 2-byte kind is two little-endian bytes per
pixel. -/
theorem byte_data_two (p : Plane) :
    p.byte_data 2 = p.pixels.flatMap (fun pix => [pix % 256, pix / 256 % 256]) := by
  unfold Plane.byte_data
  rfl

/-- C8: `copy_from_u8_slice_with_stride` fails with
`InvalidStride{stride, width}` whenever the input stride is below the
visible width (checked before the length check); otherwise fails with
`DataLength{expected, found}` whenever the byte count is not
`stride × height × byte_width`; otherwise succeeds, each visible row
`i` receiving the first `width` pixels decoded from the input row at
byte offset `i × stride × byte_width` (little-endian pairs for the
2-byte kind), skipping the remaining `stride − width` pixels of each
input row. -/
theorem copy_stride_spec (p : Plane) (src : List Nat) (input_stride byte_width : Nat)
    (hp : p.WellFormed) (hbw : byte_width = 1 ∨ byte_width = 2) :
    (input_stride < p.geometry.width →
      p.copy_from_u8_slice_with_stride src input_stride byte_width
        = (p, some (Error.InvalidStride input_stride p.geometry.width))) ∧
    (p.geometry.width ≤ input_stride →
      src.length ≠ input_stride * p.geometry.height * byte_width →
      p.copy_from_u8_slice_with_stride src input_stride byte_width
        = (p, some (Error.DataLength
            (input_stride * p.geometry.height * byte_width) src.length))) ∧
    (p.geometry.width ≤ input_stride →
      src.length = input_stride * p.geometry.height * byte_width →
      (p.copy_from_u8_slice_with_stride src input_stride byte_width).2 = none ∧
      ∀ i, i < p.geometry.height →
        (p.copy_from_u8_slice_with_stride src input_stride byte_width).1.rows.getD i []
          = if byte_width = 1 then
              (src.drop (i * input_stride)).take p.geometry.width
            else
              decodePairs ((src.drop (i * input_stride * byte_width)).take
                (p.geometry.width * byte_width))) := by
  have hw := hp.1
  have hh := hp.2.1
  have hs := hp.2.2.1
  refine ⟨?_, ?_, ?_⟩
  · intro hstr
    simp only [Plane.copy_from_u8_slice_with_stride, Plane.width, Plane.height]
    rw [if_pos hstr]
  · intro hstr hlen
    simp only [Plane.copy_from_u8_slice_with_stride, Plane.width, Plane.height]
    rw [if_neg (by omega), if_pos (by omega)]
  · intro hstr hlen
    rcases hbw with hbw1 | hbw2
    · subst hbw1
      have hrl : ∀ r ∈ (List.range p.geometry.height).map (fun i =>
          (src.drop (i * input_stride)).take p.geometry.width),
          r.length = p.geometry.width := by
        intro r hr
        obtain ⟨i, hi, rfl⟩ := List.mem_map.mp hr
        rw [List.mem_range] at hi
        have e1 : i * input_stride + input_stride = (i + 1) * input_stride := by
          rw [Nat.succ_mul]
        have e2 : (i + 1) * input_stride ≤ p.geometry.height * input_stride :=
          Nat.mul_le_mul_right _ (by omega)
        have e3 : p.geometry.height * input_stride
            = input_stride * p.geometry.height := Nat.mul_comm _ _
        simp only [List.length_take, List.length_drop]
        omega
      simp only [Plane.copy_from_u8_slice_with_stride, Plane.width, Plane.height]
      rw [if_neg (by omega), if_neg (by omega)]
      simp only [if_true]
      refine ⟨trivial, ?_⟩
      intro i hi
      rw [write_rows_plane_rows p hp _ (by rw [List.length_map, List.length_range])
        hrl]
      rw [getD_range_map _ _ hi]
    · subst hbw2
      have hrl : ∀ r ∈ (List.range p.geometry.height).map (fun i =>
          decodePairs ((src.drop (i * input_stride * 2)).take
            (p.geometry.width * 2))),
          r.length = p.geometry.width := by
        intro r hr
        obtain ⟨i, hi, rfl⟩ := List.mem_map.mp hr
        rw [List.mem_range] at hi
        have e1 : i * input_stride + input_stride = (i + 1) * input_stride := by
          rw [Nat.succ_mul]
        have e2 : (i + 1) * input_stride ≤ p.geometry.height * input_stride :=
          Nat.mul_le_mul_right _ (by omega)
        have e3 : p.geometry.height * input_stride
            = input_stride * p.geometry.height := Nat.mul_comm _ _
        rw [decodePairs_length]
        simp only [List.length_take, List.length_drop]
        omega
      simp only [Plane.copy_from_u8_slice_with_stride, Plane.width, Plane.height]
      rw [if_neg (by omega), if_neg (by omega),
        if_neg (show ¬ (2 : Nat) = 1 by omega)]
      refine ⟨rfl, ?_⟩
      intro i hi
      rw [write_rows_plane_rows p hp _ (by rw [List.length_map, List.length_range])
        hrl]
      rw [getD_range_map _ _ hi, if_neg (show ¬ (2 : Nat) = 1 by omega)]

/-- Witness for C8: the 3×2 plane fed input stride 5 with rows
`[10,20,30,99,99]` and `[40,50,60,99,99]`, plus a too-small stride. -/
theorem copy_stride_spec_witness :
    (Plane.new ⟨3, 2, 3, 0, 0, 0, 0⟩).WellFormed ∧
    ((3 : Nat) ≤ 5) ∧
    ([10, 20, 30, 99, 99, 40, 50, 60, 99, 99] : List Nat).length = 5 * 2 * 1 ∧
    ((Plane.new ⟨3, 2, 3, 0, 0, 0, 0⟩).copy_from_u8_slice_with_stride
        [10, 20, 30, 99, 99, 40, 50, 60, 99, 99] 5 1).2 = none ∧
    ((Plane.new ⟨3, 2, 3, 0, 0, 0, 0⟩).copy_from_u8_slice_with_stride
        [10, 20, 30, 99, 99, 40, 50, 60, 99, 99] 5 1).1.pixels
      = [10, 20, 30, 40, 50, 60] ∧
    ((Plane.new ⟨3, 2, 3, 0, 0, 0, 0⟩).copy_from_u8_slice_with_stride [1, 2, 3] 2 1)
      = (Plane.new ⟨3, 2, 3, 0, 0, 0, 0⟩, some (Error.InvalidStride 2 3)) :=
  ⟨by decide, by decide, by decide,
    ((copy_stride_spec (Plane.new ⟨3, 2, 3, 0, 0, 0, 0⟩)
        [10, 20, 30, 99, 99, 40, 50, 60, 99, 99] 5 1 (by decide) (Or.inl rfl)).2.2
      (by decide) (by decide)).1,
    by decide,
    (copy_stride_spec (Plane.new ⟨3, 2, 3, 0, 0, 0, 0⟩) [1, 2, 3] 2 1 (by decide)
        (Or.inl rfl)).1 (by decide)⟩

/-- C6: on a well-formed plane, `copy_from_slice` succeeds exactly on
sources of length `width * height`, after which `pixels()` yields the
source elements in order; any other length fails with
`DataLength{expected: width * height, found: src.len()}`. -/
theorem copy_from_slice_round_trip (p : Plane) (src : List Nat) (hp : p.WellFormed) :
    (src.length = p.geometry.width * p.geometry.height →
      (p.copy_from_slice src).2 = none ∧ (p.copy_from_slice src).1.pixels = src) ∧
    (src.length ≠ p.geometry.width * p.geometry.height →
      (p.copy_from_slice src).2
        = some (Error.DataLength (p.geometry.width * p.geometry.height) src.length)) := by
  have hw := hp.1
  have hh := hp.2.1
  have hs := hp.2.2.1
  constructor
  · intro hlen
    simp only [Plane.copy_from_slice, Plane.width, Plane.height]
    rw [if_neg (by omega)]
    refine ⟨rfl, ?_⟩
    have hchunks : listChunks p.geometry.width src
        = (List.range p.geometry.height).map (fun i =>
            (src.drop (p.geometry.width * i)).take p.geometry.width) :=
      listChunks_exact p.geometry.width p.geometry.height hw src (by omega)
    have hrl : ∀ r ∈ listChunks p.geometry.width src, r.length = p.geometry.width := by
      rw [hchunks]
      intro r hr
      obtain ⟨i, hi, rfl⟩ := List.mem_map.mp hr
      rw [List.mem_range] at hi
      have hmul : p.geometry.width * (i + 1) ≤ p.geometry.width * p.geometry.height :=
        Nat.mul_le_mul_left _ (by omega)
      rw [Nat.mul_succ] at hmul
      simp only [List.length_take, List.length_drop]
      omega
    have hrs_len : (listChunks p.geometry.width src).length = p.geometry.height := by
      rw [hchunks, List.length_map, List.length_range]
    have hbound : ∀ i, i < (listChunks p.geometry.width src).length →
        p.data_origin + p.geometry.stride * i + p.geometry.width ≤ p.data.length := by
      intro i hi
      rw [hrs_len] at hi
      exact Plane.wf_row_bound hp hi
    have hboundD : ∀ i, i < (listChunks p.geometry.width src).length →
        p.data_origin + p.geometry.stride * i
          + ((listChunks p.geometry.width src).getD i []).length ≤ p.data.length := by
      intro i hi
      have := hbound i hi
      rw [List.getD_eq_getElem _ [] hi]
      rw [hrl _ (List.getElem_mem hi)]
      omega
    have hqlen : (writeRows p.data p.data_origin p.geometry.stride
        (listChunks p.geometry.width src)).length = p.data.length :=
      writeRows_length _ p.data p.data_origin p.geometry.stride hboundD
    have hqwf : (⟨writeRows p.data p.data_origin p.geometry.stride
        (listChunks p.geometry.width src), p.geometry⟩ : Plane).WellFormed := by
      refine ⟨hw, hh, hs, ?_⟩
      rw [hqlen]
      exact hp.2.2.2
    have hread := writeRows_read p.geometry.width (listChunks p.geometry.width src)
      p.data p.data_origin p.geometry.stride hrl (by omega) hbound
    unfold Plane.pixels
    rw [Plane.rows_eq_of_wf hqwf]
    have hrows : (List.range p.geometry.height).map (fun i =>
          ((⟨writeRows p.data p.data_origin p.geometry.stride
              (listChunks p.geometry.width src), p.geometry⟩ : Plane).data.drop
            ((⟨writeRows p.data p.data_origin p.geometry.stride
              (listChunks p.geometry.width src), p.geometry⟩ : Plane).data_origin
              + p.geometry.stride * i)).take p.geometry.width)
        = (List.range p.geometry.height).map (fun i =>
            (src.drop (p.geometry.width * i)).take p.geometry.width) := by
      apply List.map_congr_left
      intro i hi
      rw [List.mem_range] at hi
      have hr := hread i (by rw [hrs_len]; exact hi)
      have hD : (listChunks p.geometry.width src).getD i []
          = (src.drop (p.geometry.width * i)).take p.geometry.width := by
        rw [List.getD_eq_getElem _ [] (by rw [hrs_len]; exact hi)]
        simp only [hchunks, List.getElem_map, List.getElem_range]
      rw [← hD, ← hr]
      rfl
    rw [hrows]
    exact flatten_range_map p.geometry.width p.geometry.height src hlen
  · intro hlen
    simp only [Plane.copy_from_slice, Plane.width, Plane.height]
    rw [if_pos (by omega)]

/-- Witness for C6 on a 2×2 plane: a 4-element source round-trips, a
3-element source fails with the exact error. -/
theorem copy_from_slice_round_trip_witness :
    (Plane.new ⟨2, 2, 2, 0, 0, 0, 0⟩).WellFormed ∧
    ([1, 2, 3, 4] : List Nat).length = 2 * 2 ∧
    ((Plane.new ⟨2, 2, 2, 0, 0, 0, 0⟩).copy_from_slice [1, 2, 3, 4]).2 = none ∧
    ((Plane.new ⟨2, 2, 2, 0, 0, 0, 0⟩).copy_from_slice [1, 2, 3, 4]).1.pixels
      = [1, 2, 3, 4] ∧
    ((Plane.new ⟨2, 2, 2, 0, 0, 0, 0⟩).copy_from_slice [1, 2, 3]).2
      = some (Error.DataLength (2 * 2) 3) :=
  ⟨by decide, by decide,
    ((copy_from_slice_round_trip (Plane.new ⟨2, 2, 2, 0, 0, 0, 0⟩) [1, 2, 3, 4]
        (by decide)).1 (by decide)).1,
    ((copy_from_slice_round_trip (Plane.new ⟨2, 2, 2, 0, 0, 0, 0⟩) [1, 2, 3, 4]
        (by decide)).1 (by decide)).2,
    (copy_from_slice_round_trip (Plane.new ⟨2, 2, 2, 0, 0, 0, 0⟩) [1, 2, 3]
        (by decide)).2 (by decide)⟩

/-- C7: for both element kinds (1-byte and 2-byte), collecting
`byte_data()` of a well-formed plane with in-range sample values and
feeding those bytes to `copy_from_u8_slice` on a freshly allocated
plane of the same geometry succeeds and reproduces the original
visible pixels. -/
theorem byte_data_round_trip (p : Plane) (byte_width : Nat) (hp : p.WellFormed)
    (hbw : byte_width = 1 ∨ byte_width = 2)
    (hrange : ∀ x ∈ p.pixels, x < 2 ^ (8 * byte_width)) :
    ((Plane.new p.geometry).copy_from_u8_slice (p.byte_data byte_width)
        byte_width).2 = none ∧
    ((Plane.new p.geometry).copy_from_u8_slice (p.byte_data byte_width)
        byte_width).1.pixels = p.pixels := by
  have hw := hp.1
  have hh := hp.2.1
  have hs := hp.2.2.1
  obtain ⟨q0, hq0eq⟩ : ∃ q0, Plane.new p.geometry = q0 := ⟨_, rfl⟩
  have hq0wf : q0.WellFormed := hq0eq ▸ Plane.new_wf hw hh hs
  have hqg : q0.geometry = p.geometry := by rw [← hq0eq]; rfl
  have hplen : p.pixels.length = p.geometry.width * p.geometry.height :=
    Plane.pixels_length_of_wf hp
  have hrlen := Plane.rows_length_of_wf hp
  have hrmem := Plane.rows_mem_length_of_wf hp
  rw [hq0eq]
  rcases hbw with hbw | hbw <;> subst hbw
  · -- 1-byte kind
    have hbytes : p.byte_data 1 = p.pixels := by
      rw [byte_data_one p]
      have hid : ∀ x ∈ p.pixels, x % 256 = x := by
        intro x hx
        have h2 := hrange x hx
        norm_num at h2
        omega
      rw [List.map_congr_left hid, List.map_id']
    have hrs : (List.range p.geometry.height).map (fun i =>
        ((p.byte_data 1).drop (i * p.geometry.width)).take p.geometry.width)
        = p.rows := by
      rw [hbytes]
      apply List.ext_getElem (by simp [hrlen])
      intro i h1 h2
      simp only [List.getElem_map, List.getElem_range]
      have hi : i < p.geometry.height := by simpa using h1
      have hseg := flatten_drop_take p.geometry.width p.rows hrmem i
        (by rw [hrlen]; exact hi)
      rw [show i * p.geometry.width = p.geometry.width * i from Nat.mul_comm _ _,
        show p.pixels = p.rows.flatten from rfl, hseg,
        List.getD_eq_getElem _ [] (by rw [hrlen]; exact hi)]
    simp only [Plane.copy_from_u8_slice, Plane.copy_from_u8_slice_with_stride,
      Plane.width, Plane.height]
    rw [hqg]
    rw [if_neg (by omega),
      if_neg (by rw [hbytes, hplen]; omega)]
    simp only [if_true]
    have W := write_rows_plane_rows q0 hq0wf p.rows (by rw [hqg]; exact hrlen)
      (by rw [hqg]; exact hrmem)
    rw [hqg] at W
    rw [hrs]
    refine ⟨trivial, ?_⟩
    unfold Plane.pixels
    rw [W]
  · -- 2-byte kind
    have hrange' : ∀ x ∈ p.pixels, x < 65536 := by
      intro x hx
      have h2 := hrange x hx
      norm_num at h2
      exact h2
    have hbytes : p.byte_data 2
        = (p.rows.map (fun r =>
            r.flatMap (fun pix => [pix % 256, pix / 256 % 256]))).flatten := by
      rw [byte_data_two p]
      exact flatMap_flatten _ p.rows
    have hblen : (p.byte_data 2).length
        = 2 * (p.geometry.width * p.geometry.height) := by
      rw [byte_data_two p,
        flatMap_const_length 2 (fun pix => [pix % 256, pix / 256 % 256])
          (fun x => rfl), hplen]
    have hencmem : ∀ er ∈ p.rows.map (fun r =>
        r.flatMap (fun pix => [pix % 256, pix / 256 % 256])),
        er.length = 2 * p.geometry.width := by
      intro er her
      obtain ⟨r, hr, rfl⟩ := List.mem_map.mp her
      rw [flatMap_const_length 2 (fun pix => [pix % 256, pix / 256 % 256])
        (fun x => rfl), hrmem r hr]
    have hrs : (List.range p.geometry.height).map (fun i =>
        decodePairs (((p.byte_data 2).drop (i * p.geometry.width * 2)).take
          (p.geometry.width * 2)))
        = p.rows := by
      apply List.ext_getElem (by simp [hrlen])
      intro i h1 h2
      simp only [List.getElem_map, List.getElem_range]
      have hi : i < p.geometry.height := by simpa using h1
      have hseg := flatten_drop_take (2 * p.geometry.width)
        (p.rows.map (fun r => r.flatMap (fun pix => [pix % 256, pix / 256 % 256])))
        hencmem i (by rw [List.length_map, hrlen]; exact hi)
      rw [show i * p.geometry.width * 2 = 2 * p.geometry.width * i by ring,
        show p.geometry.width * 2 = 2 * p.geometry.width from Nat.mul_comm _ _,
        hbytes, hseg,
        List.getD_eq_getElem _ [] (by rw [List.length_map, hrlen]; exact hi),
        List.getElem_map]
      exact decodePairs_encode _ (fun x hx => hrange' x
        (List.mem_flatten.mpr ⟨_, List.getElem_mem (by rw [hrlen]; exact hi), hx⟩))
    simp only [Plane.copy_from_u8_slice, Plane.copy_from_u8_slice_with_stride,
      Plane.width, Plane.height]
    rw [hqg]
    rw [if_neg (by omega),
      if_neg (by rw [hblen]; omega),
      if_neg (show ¬ (2 : Nat) = 1 by omega)]
    have W := write_rows_plane_rows q0 hq0wf p.rows (by rw [hqg]; exact hrlen)
      (by rw [hqg]; exact hrmem)
    rw [hqg] at W
    rw [hrs]
    refine ⟨rfl, ?_⟩
    unfold Plane.pixels
    rw [W]

/-- Witness for C7: a 2×2 plane of 16-bit samples round-trips through
`byte_data` and `copy_from_u8_slice`. -/
theorem byte_data_round_trip_witness :
    (⟨[300, 5, 65535, 42], ⟨2, 2, 2, 0, 0, 0, 0⟩⟩ : Plane).WellFormed ∧
    ((2 : Nat) = 1 ∨ (2 : Nat) = 2) ∧
    (∀ x ∈ (⟨[300, 5, 65535, 42], ⟨2, 2, 2, 0, 0, 0, 0⟩⟩ : Plane).pixels,
      x < 2 ^ (8 * 2)) ∧
    ((Plane.new ⟨2, 2, 2, 0, 0, 0, 0⟩).copy_from_u8_slice
        ((⟨[300, 5, 65535, 42], ⟨2, 2, 2, 0, 0, 0, 0⟩⟩ : Plane).byte_data 2) 2).1.pixels
      = (⟨[300, 5, 65535, 42], ⟨2, 2, 2, 0, 0, 0, 0⟩⟩ : Plane).pixels :=
  ⟨by decide, Or.inr rfl, by decide,
    (byte_data_round_trip (⟨[300, 5, 65535, 42], ⟨2, 2, 2, 0, 0, 0, 0⟩⟩ : Plane) 2
      (by decide) (Or.inr rfl) (by decide)).2⟩

/-- C9: `pixel(x, y)` computes the linear index
`data_origin + stride * y + x` and bounds-checks it against the whole
buffer (padding included) — not against `width`/`height`; consequently,
on some plane of a built frame, `pixel(width, 0)` returns a defined
value. -/
theorem pixel_linear_index :
    (∀ (p : Plane) (x y : Nat),
      p.pixel x y =
        if h : p.data_origin + p.geometry.stride * y + x < p.data.length then
          some (p.data.get ⟨p.data_origin + p.geometry.stride * y + x, h⟩)
        else none) ∧
    (((FrameBuilder.mk 2 2 .Monochrome 0 0 0 0).build 1 8).toOption.map
        (fun f => (f.y_plane.pixel f.y_plane.geometry.width 0).isSome)
      = some true) := by
  constructor
  · intro p x y
    unfold Plane.pixel
    split
    case isTrue h => exact List.getElem?_eq_getElem h
    case isFalse h => exact List.getElem?_eq_none (by omega)
  · decide

/-- Witness for C9: a 2×3-stride plane where `pixel(2, 0)` lands on the
next storage position and is defined. -/
theorem pixel_linear_index_witness :
    ((⟨[7, 8, 9, 10, 11, 12], ⟨2, 2, 3, 0, 1, 0, 0⟩⟩ : Plane).pixel 2 0 = some 9) ∧
    (((FrameBuilder.mk 2 2 .Monochrome 0 0 0 0).build 1 8).toOption.map
        (fun f => (f.y_plane.pixel f.y_plane.geometry.width 0).isSome)
      = some true) :=
  ⟨(pixel_linear_index.1 (⟨[7, 8, 9, 10, 11, 12], ⟨2, 2, 3, 0, 1, 0, 0⟩⟩ : Plane)
      2 0).trans (by decide),
    pixel_linear_index.2⟩

/-- C10: whenever `copy_from_slice`, `copy_from_u8_slice` or
`copy_from_u8_slice_with_stride` returns an error, the plane — visible
pixels and padding alike — is unchanged: every validation check
precedes every write. -/
theorem copy_error_atomic (p : Plane) (src bsrc : List Nat)
    (input_stride byte_width : Nat) :
    (∀ e, (p.copy_from_slice src).2 = some e → (p.copy_from_slice src).1 = p) ∧
    (∀ e, (p.copy_from_u8_slice bsrc byte_width).2 = some e →
      (p.copy_from_u8_slice bsrc byte_width).1 = p) ∧
    (∀ e, (p.copy_from_u8_slice_with_stride bsrc input_stride byte_width).2 = some e →
      (p.copy_from_u8_slice_with_stride bsrc input_stride byte_width).1 = p) := by
  have H : ∀ (istr : Nat) (e : Error),
      (p.copy_from_u8_slice_with_stride bsrc istr byte_width).2 = some e →
      (p.copy_from_u8_slice_with_stride bsrc istr byte_width).1 = p := by
    intro istr e he
    simp only [Plane.copy_from_u8_slice_with_stride] at he ⊢
    split_ifs at he ⊢
    all_goals simp_all
  refine ⟨?_, fun e he => H p.width e he, H input_stride⟩
  intro e he
  simp only [Plane.copy_from_slice] at he ⊢
  split_ifs at he ⊢
  all_goals simp_all

/-- Witness for C10: a failing `copy_from_slice` leaves the plane
unchanged. -/
theorem copy_error_atomic_witness :
    ((Plane.new ⟨2, 2, 2, 0, 0, 0, 0⟩).copy_from_slice [9]).2
      = some (Error.DataLength (2 * 2) 1) ∧
    ((Plane.new ⟨2, 2, 2, 0, 0, 0, 0⟩).copy_from_slice [9]).1
      = Plane.new ⟨2, 2, 2, 0, 0, 0, 0⟩ :=
  ⟨by decide,
    (copy_error_atomic (Plane.new ⟨2, 2, 2, 0, 0, 0, 0⟩) [9] [] 0 0).1
      (Error.DataLength (2 * 2) 1) (by decide)⟩

end VFrame
